import Mathlib

/-!
Verification of the chunk-pipeline core of the minecraft_assessment_server
repository against its natural-language specification.

Shallow embedding conventions:
* Python strings are modelled as `List Char`; Python byte strings as
  `List Nat` with entries in `[0,256)`.
* Machine integers are `Nat`/`Int` with explicit `% 2^w` where the source
  masks or packs.
* Fallible Python code (raising exceptions) is modelled in `Except`;
  `try/except` blocks become explicit catch combinators.
* The source files embedded here are `server/chunk_store.py`,
  `server/chunk_cache.py`, `server/chunk_storage.py`,
  `server/chunk_processor.py` and `server/optimized_renderer.py`.
-/

/-! ## String utilities (models of the Python `str` operations used) -/

/-- Python `str.split(sep)` for a one-character separator: splitting an empty
string yields `[""]`, and separators at the ends yield empty pieces. -/
def splitChar (sep : Char) : List Char → List Char → List (List Char)
  | [], acc => [acc.reverse]
  | c :: cs, acc =>
    if c = sep then acc.reverse :: splitChar sep cs [] else splitChar sep cs (c :: acc)

/-- ASCII whitespace, the characters `str.strip()` removes on the payloads in
scope (the Python method also strips other Unicode spaces; none occur in the
wire format). -/
def isSpaceChar (c : Char) : Bool :=
  c = ' ' ∨ c = '\t' ∨ c = '\n' ∨ c = '\r' ∨ c = '\x0b' ∨ c = '\x0c'

/-- Python `str.strip(chars)`: remove every leading and trailing character
satisfying `p`. -/
def stripBy (p : Char → Bool) (s : List Char) : List Char :=
  ((s.dropWhile p).reverse.dropWhile p).reverse

/-- Decimal digit run to a number; `none` on an empty or non-digit run. -/
def digitsToNat : List Char → Option Nat
  | [] => none
  | c :: cs =>
    if c.isDigit then
      (c :: cs).foldlM (fun acc d => if d.isDigit then some (acc * 10 + (d.toNat - 48)) else none) 0
    else none

/-- Python `int(s)` on the token shapes in scope: surrounding whitespace, an
optional sign, then decimal digits.  (Python additionally accepts `_` digit
separators; no wire token uses them, and a parse failure and an unparseable
token are handled identically by the callers embedded below.) -/
def pyParseInt (s : List Char) : Option Int :=
  match stripBy isSpaceChar s with
  | '-' :: rest => (digitsToNat rest).map (fun n => -(n : Int))
  | '+' :: rest => (digitsToNat rest).map (fun n => (n : Int))
  | t => (digitsToNat t).map (fun n => (n : Int))

/-! ## Base64 (model of `base64.b64decode(token + '==')` on 6-char tokens) -/

/-- The standard base64 alphabet, in value order. -/
def b64Alphabet : List Char :=
  ['A', 'B', 'C', 'D', 'E', 'F', 'G', 'H', 'I', 'J', 'K', 'L', 'M',
   'N', 'O', 'P', 'Q', 'R', 'S', 'T', 'U', 'V', 'W', 'X', 'Y', 'Z',
   'a', 'b', 'c', 'd', 'e', 'f', 'g', 'h', 'i', 'j', 'k', 'l', 'm',
   'n', 'o', 'p', 'q', 'r', 's', 't', 'u', 'v', 'w', 'x', 'y', 'z',
   '0', '1', '2', '3', '4', '5', '6', '7', '8', '9', '+', '/']

/-- Position of a character in a list. -/
def charIndex (c : Char) : List Char → Option Nat
  | [] => none
  | d :: ds => if d = c then some 0 else (charIndex c ds).map (· + 1)

/-- Value of one character of the standard base64 alphabet. -/
def b64Val (c : Char) : Option Nat := charIndex c b64Alphabet

/-- Model of `base64.b64decode(token + '==')` for a 6-character token,
returning the 4 raw bytes (first quartet gives 3 bytes, the final
`c4 c5 = =` quartet gives 1 byte; the low 4 bits of `c5` are discarded, as
`b64decode` does without `validate`).  A token containing a character outside
the standard alphabet is modelled as failing; in the source both a `b64decode`
exception and a decoded length other than 4 are converted to the same
`ValueError`, so the distinction is not observable to callers. -/
def b64DecodeToken : List Char → Option (List Nat)
  | [c0, c1, c2, c3, c4, c5] => do
    let v0 ← b64Val c0
    let v1 ← b64Val c1
    let v2 ← b64Val c2
    let v3 ← b64Val c3
    let v4 ← b64Val c4
    let v5 ← b64Val c5
    some [v0 * 4 + v1 / 16, v1 % 16 * 16 + v2 / 4, v2 % 4 * 64 + v3, v4 * 4 + v5 / 16]
  | _ => none

/-- Little-endian `struct.unpack('<I', raw)` on 4 bytes. -/
def leU32 (b0 b1 b2 b3 : Nat) : Nat :=
  b0 + 256 * b1 + 65536 * b2 + 16777216 * b3

/-- The 32-bit value of a valid 6-character token:
`struct.unpack('<I', base64.b64decode(token + '=='))[0]`. -/
def b64TokenValue (t : List Char) : Option Nat :=
  (b64DecodeToken t).map (fun raw => leU32 (raw.getD 0 0) (raw.getD 1 0) (raw.getD 2 0) (raw.getD 3 0))

/-! ## `decode_getchunkdata` (server/chunk_store.py, lines 95-168) -/

/-- Decode errors raised by `decode_getchunkdata` (all surface as
`ValueError`/`IndexError` in the source). -/
inductive DecodeErr where
  | emptyData : DecodeErr
  | invalidB64 (token : List Char) : DecodeErr
  | unexpectedToken (token : List Char) : DecodeErr
  | unknownIndex (i : Int) : DecodeErr
  | wrongLength (n : Nat) : DecodeErr
deriving DecidableEq, Repr

/-- Decoder state: `index_to_data`, the `pixels` and `heights` accumulators and
`cur_idx`.  The dict is an association list; keys are inserted in strictly
increasing order so lookup order is immaterial. -/
structure DecSt where
  indexToData : List (Int × Nat)
  pixels : List Nat
  heights : List Nat
  curIdx : Nat
deriving DecidableEq, Repr

/-- Dict lookup `index_to_data[ref_index]` (with the `in` membership test). -/
def lookupIdx (m : List (Int × Nat)) (k : Int) : Option Nat :=
  (m.find? (fun kv => kv.1 = k)).map (fun kv => kv.2)

/-- The repeat count of one element: `int(parts[1])` when `elem.split('*')`
has exactly two parts, with a parse failure or a negative count logged and
replaced by 0; any other shape gives 0. -/
def dupCountOf (parts : List (List Char)) : Nat :=
  match parts with
  | [_, d] =>
    match pyParseInt d with
    | some n => if n < 0 then 0 else n.toNat
    | none => 0
  | _ => 0

/-- Extract height (MSB) and ARGB (alpha forced to 255) from a resolved value
and append `count` copies of both, advancing `cur_idx`:
`height = (value & 0xFF000000) >> 24`, `argb = (value & 0x00FFFFFF) | 0xFF000000`
(the OR is a sum because the operands occupy disjoint bit ranges). -/
def appendValue (st : DecSt) (value : Nat) (count : Nat) : DecSt :=
  { st with
    pixels := st.pixels ++ List.replicate count (value % 16777216 + 4278190080)
    heights := st.heights ++ List.replicate count (value / 16777216 % 256)
    curIdx := st.curIdx + count }

/-- Process one comma-separated element of the stream. -/
def stepElem (st : DecSt) (elem : List Char) : Except DecodeErr DecSt :=
  let parts := splitChar '*' elem []
  let token := parts.headD []
  let dup := dupCountOf parts
  if token.length = 6 then
    match b64TokenValue token with
    | none => .error (.invalidB64 token)
    | some value =>
      .ok (appendValue { st with indexToData := ((st.curIdx : Int), value) :: st.indexToData }
        value (dup + 1))
  else
    match pyParseInt token with
    | none => .error (.unexpectedToken token)
    | some refIndex =>
      match lookupIdx st.indexToData refIndex with
      | none => .error (.unknownIndex refIndex)
      | some value => .ok (appendValue st value (dup + 1))

/-- Fold `stepElem` over the element list, stopping at the first error. -/
def decodeElems (st : DecSt) : List (List Char) → Except DecodeErr DecSt
  | [] => .ok st
  | e :: es =>
    match stepElem st e with
    | .ok st' => decodeElems st' es
    | .error err => .error err

/-- Initial decoder state. -/
def initSt : DecSt := ⟨[], [], [], 0⟩

/-- Model of `decode_getchunkdata(data_str)`: strip whitespace and quotes,
reject an empty payload, split on commas dropping empty elements, decode every
element, and require exactly 256 output slots. -/
def decode_getchunkdata (dataStr : List Char) : Except DecodeErr (List Nat × List Nat) :=
  let s := stripBy (fun c => c = '"') (stripBy isSpaceChar dataStr)
  if s = [] then .error .emptyData
  else
    match decodeElems initSt ((splitChar ',' s []).filter (fun e => ¬ e = [])) with
    | .error e => .error e
    | .ok st =>
      if st.pixels.length = 256 then .ok (st.pixels, st.heights)
      else .error (.wrongLength st.pixels.length)

/-! ## `pack_chunk_binary` / `unpack_chunk_binary` (chunk_store.py, 406-451) -/

/-- `struct.pack('<I', p & 0xFFFFFFFF)`: 4 little-endian bytes. -/
def le32Bytes (p : Nat) : List Nat :=
  [p % 4294967296 % 256, p % 4294967296 / 256 % 256,
   p % 4294967296 / 65536 % 256, p % 4294967296 / 16777216 % 256]

/-- The pixel loop of `pack_chunk_binary`: each pixel masked to 32 bits and
written little-endian. -/
def packPixels : List Nat → List Nat
  | [] => []
  | p :: ps => le32Bytes p ++ packPixels ps

/-- The heights loop of `pack_chunk_binary`: `struct.pack('<B', h & 0xFF)`. -/
def packHeights : List Nat → List Nat
  | [] => []
  | h :: hs => h % 256 :: packHeights hs

/-- Model of `pack_chunk_binary(pixels, heights)`: 4-byte magic `b'CHNK'`,
2-byte little-endian version 1, 256 little-endian uint32 pixels, 256 single
bytes of heights; raises `ValueError` unless both inputs have length 256. -/
def pack_chunk_binary (pixels heights : List Nat) : Except String (List Nat) :=
  if pixels.length = 256 ∧ heights.length = 256 then
    .ok ([67, 72, 78, 75] ++ [1, 0] ++ packPixels pixels ++ packHeights heights)
  else .error "pixels and heights must be length 256"

/-- Read `n` little-endian uint32 values (`struct.unpack_from('<I', ...)` in
the source's pixel loop), returning the values and the remaining bytes. -/
def readU32s : Nat → List Nat → Option (List Nat × List Nat)
  | 0, rest => some ([], rest)
  | n + 1, b0 :: b1 :: b2 :: b3 :: rest =>
    match readU32s n rest with
    | some (vs, rem) => some (leU32 b0 b1 b2 b3 :: vs, rem)
    | none => none
  | _ + 1, _ => none

/-- Read `n` single bytes (the source's heights loop). -/
def readU8s : Nat → List Nat → Option (List Nat × List Nat)
  | 0, rest => some ([], rest)
  | n + 1, b :: rest =>
    match readU8s n rest with
    | some (vs, rem) => some (b :: vs, rem)
    | none => none
  | _ + 1, [] => none

/-- Model of `unpack_chunk_binary(blob)`: reject a buffer shorter than
`4 + 2 + 256*4 + 256 = 1286` bytes, then check magic and version and read the
two arrays at fixed offsets (trailing bytes beyond offset 1286 are ignored, as
in the source).  The magic comparison is on the raw 4 bytes: the source's
`decode('ascii', errors='ignore')` discards non-ASCII bytes, and any 4-byte
prefix with a discarded byte decodes to fewer than 4 characters and so cannot
equal `'CHNK'`. -/
def unpack_chunk_binary (blob : List Nat) : Except String (List Nat × List Nat) :=
  if blob.length < 1286 then .error "binary blob too small to contain chunk"
  else
    match blob with
    | m0 :: m1 :: m2 :: m3 :: v0 :: v1 :: rest =>
      if ¬ ([m0, m1, m2, m3] = [67, 72, 78, 75]) then .error "invalid chunk magic"
      else if ¬ (v0 + 256 * v1 = 1) then .error "unsupported version"
      else
        match readU32s 256 rest with
        | none => .error "buffer exhausted"
        | some (pixels, rest2) =>
          match readU8s 256 rest2 with
          | none => .error "buffer exhausted"
          | some (heights, _) => .ok (pixels, heights)
    | _ => .error "binary blob too small to contain chunk"

/-! ## Specification views of the decoder used by the back-reference analysis -/

/-- Pairing invariant between one pixel and one height produced from the same
resolved 32-bit value. -/
def PxHt (px ht : Nat) : Prop :=
  ∃ v, v < 4294967296 ∧ px = v % 16777216 + 4278190080 ∧ ht = v / 16777216 % 256

/-- Decoder-state invariant: pixels and heights are pairwise produced from
resolved values, `cur_idx` counts produced slots, and every `index_to_data`
entry keys an already-produced position to a 32-bit value. -/
def StInv (st : DecSt) : Prop :=
  List.Forall₂ PxHt st.pixels st.heights ∧
  st.curIdx = st.pixels.length ∧
  ∀ kv ∈ st.indexToData, 0 ≤ kv.1 ∧ kv.1 < (st.curIdx : Int) ∧ kv.2 < 4294967296

/-- Specification of `index_to_data` after a successful decode: the output
positions at which a 6-character base64 token itself started, with the token's
value.  Positions filled by `*N` repeat expansion or by back-reference tokens
never enter the table. -/
def b64StartTable (pos : Nat) : List (List Char) → List (Int × Nat)
  | [] => []
  | e :: es =>
    let parts := splitChar '*' e []
    let token := parts.headD []
    let dup := dupCountOf parts
    if token.length = 6 then
      match b64TokenValue token with
      | some value => ((pos : Int), value) :: b64StartTable (pos + (dup + 1)) es
      | none => []
    else b64StartTable (pos + (dup + 1)) es

/-! ## ChunkCache (server/chunk_cache.py) -/

/-- Cache/storage coordinate key `(x, y, z)`. -/
abbrev Coord := Int × Int × Int

/-- State of a `ChunkCache` plus the `ChunkStorage` backing it.  The ordered
dict is a list with the least-recently-used entry at the head; compression
(`zlib.compress`/`pickle.dumps` and their inverses on `get`) is modelled as
the identity since the source always composes the two into a round trip.  The
storage back end is modelled as the coordinate-keyed map that
`ChunkStorage.save` maintains (this section models the storage-backed
configuration; `storage=None` disables the fallback paths entirely). -/
structure ChunkCache (α : Type) where
  maxSize : Nat
  cache : List (Coord × α)
  storage : Coord → Option α
  hitCount : Nat
  missCount : Nat

/-- `OrderedDict` assignment plus `move_to_end`: any existing entry for the
key is removed and the pair is appended at the most-recently-used end. -/
def cacheMoveToEnd {α : Type} (cache : List (Coord × α)) (k : Coord) (v : α) :
    List (Coord × α) :=
  cache.filter (fun kv => ¬ kv.1 = k) ++ [(k, v)]

/-- `ChunkCache.put(x, y, z, data, save_to_storage)`: optionally persist via
`ChunkStorage.save`, insert the compressed copy as most recently used, then
pop the least-recently-used entry if the capacity is exceeded (the storage
record is untouched by eviction). -/
def ChunkCache.put {α : Type} (st : ChunkCache α) (k : Coord) (data : α)
    (saveToStorage : Bool) : ChunkCache α :=
  let st1 :=
    if saveToStorage then
      { st with storage := fun c => if c = k then some data else st.storage c }
    else st
  let cache1 := cacheMoveToEnd st1.cache k data
  { st1 with cache := if st1.maxSize < cache1.length then cache1.tail else cache1 }

/-- `ChunkCache.get(x, y, z)`: a cache hit promotes the entry to most recently
used and returns it; a miss falls back to storage and, on a storage hit,
re-inserts via `put(..., save_to_storage=False)`.  The storage `load` here is
the index lookup (its failure modes are modelled in the `ChunkStorage`
section). -/
def ChunkCache.get {α : Type} (st : ChunkCache α) (k : Coord) :
    Option α × ChunkCache α :=
  match (st.cache.find? (fun kv => kv.1 = k)).map (fun kv => kv.2) with
  | some v =>
    (some v, { st with hitCount := st.hitCount + 1, cache := cacheMoveToEnd st.cache k v })
  | none =>
    let st1 : ChunkCache α := { st with missCount := st.missCount + 1 }
    match st.storage k with
    | some d => (some d, st1.put k d false)
    | none => (none, st1)

/-- Fold of `put(..., save_to_storage=True)` over a coordinate list, each
with its data. -/
def putAll {α : Type} (f : Coord → α) (st : ChunkCache α) : List Coord → ChunkCache α
  | [] => st
  | c :: cs => putAll f (st.put c (f c) true) cs

/-- Python division, fallible on a zero divisor (`ZeroDivisionError`). -/
def pyDivQ (a b : ℚ) : Except String ℚ :=
  if b = 0 then .error "ZeroDivisionError" else .ok (a / b)

/-- `ChunkCache.get_stats()` restricted to the fields the claims mention:
`(size, hit_count, miss_count, hit_rate)` with
`hit_rate = hit_count / total_requests if total_requests > 0 else 0`. -/
def ChunkCache.get_stats {α : Type} (st : ChunkCache α) :
    Except String (Nat × Nat × Nat × ℚ) := do
  let total := st.hitCount + st.missCount
  let hitRate ← if 0 < total then pyDivQ (st.hitCount : ℚ) (total : ℚ) else pure 0
  .ok (st.cache.length, st.hitCount, st.missCount, hitRate)

/-! ## ChunkStorage.load (server/chunk_storage.py, lines 66-83) -/

/-- Outcome of the disk portion of `ChunkStorage.load` for one coordinate:
the `open`/`read` may raise `OSError`, `zlib.decompress` may raise, and
`pickle.loads` may raise; otherwise the deserialized chunk is returned. -/
inductive DiskOutcome (α : Type) where
  | ioError : DiskOutcome α
  | decompressError : DiskOutcome α
  | deserializeError : DiskOutcome α
  | ok (data : α) : DiskOutcome α

/-- Python exception surrogate for the storage layer. -/
inductive PyExn where
  | osError : PyExn
  | zlibError : PyExn
  | pickleError : PyExn
  | queueFull : PyExn
deriving DecidableEq, Repr

/-- State of a `ChunkStorage`: the in-memory metadata index (membership is the
`exists` check), whether the `region_dir.mkdir(exist_ok=True)` performed by
`_get_chunk_path` would currently succeed for the coordinate's region
(chunk_storage.py lines 57-64: it raises `OSError` when the data directory is
missing, permissions deny it, the region path is occupied by a regular file,
or the disk is full), and the disk contents, modelled as the outcome each
coordinate's chunk file would produce if read now. -/
structure ChunkStorage (α : Type) where
  chunkIndex : Coord → Bool
  mkdirOk : Coord → Bool
  disk : Coord → DiskOutcome α

/-- The fallible part of `_get_chunk_path`: creating the region directory.
In `load` this runs at chunk_storage.py line 75, before — and outside — the
`try:` block. -/
def getChunkPathMkdir {α : Type} (st : ChunkStorage α) (k : Coord) : Except PyExn Unit :=
  if st.mkdirOk k then .ok () else .error .osError

/-- The body of the `try:` block in `ChunkStorage.load`: read, decompress and
deserialize the chunk file, raising on any failure. -/
def storageLoadBody {α : Type} (st : ChunkStorage α) (k : Coord) : Except PyExn α :=
  match st.disk k with
  | .ioError => .error .osError
  | .decompressError => .error .zlibError
  | .deserializeError => .error .pickleError
  | .ok d => .ok d

/-- An `except Exception:` handler around a fallible body. -/
def exceptCatch {ε α : Type} (body : Except ε α) (handler : ε → Except ε α) : Except ε α :=
  match body with
  | .error e => handler e
  | .ok a => .ok a

/-- Model of `ChunkStorage.load(x, y, z)`: return `None` when the coordinate
is not in the metadata index; otherwise compute the chunk path — whose
region-directory creation is outside the `try:` block, so its `OSError`
propagates to the caller — and then run the fallible disk read under a
handler that logs and returns `None`. -/
def ChunkStorage.load {α : Type} (st : ChunkStorage α) (k : Coord) :
    Except PyExn (Option α) :=
  if ¬ st.chunkIndex k then .ok none
  else
    match getChunkPathMkdir st k with
    | .error e => .error e
    | .ok _ => exceptCatch ((storageLoadBody st k).map some) (fun _ => .ok none)

/-- The non-raising result of `load`: the chunk when the index lists it and
the disk read succeeds, `None` otherwise. -/
def loadSpecResult {α : Type} (st : ChunkStorage α) (k : Coord) : Option α :=
  if st.chunkIndex k then
    match st.disk k with
    | .ok d => some d
    | _ => none
  else none

/-- A storage state whose metadata index lists every coordinate but whose
region-directory creation fails (for example, the data directory was removed
after the index was loaded). -/
def mkdirFailingStorage : ChunkStorage Nat :=
  ⟨fun _ => true, fun _ => false, fun _ => DiskOutcome.ok 0⟩

/-! ## ChunkProcessor batching (server/chunk_processor.py, lines 201-271) -/

/-- `_create_batch`: walk the pending-request map in insertion order, take
each coordinate with a non-empty future list, and stop once the batch holds
`batch_size` entries.  `remaining` is the number of slots still free in the
batch. -/
def takeBatch {H : Type} (remaining : Nat) : List (Coord × List H) → List (Coord × List H)
  | [] => []
  | (c, fs) :: rest =>
    if fs.isEmpty then takeBatch remaining rest
    else if remaining ≤ 1 then [(c, fs)]
    else (c, fs) :: takeBatch (remaining - 1) rest

/-- The coordinates a batch generates: `coords = [coord for coord, _ in batch]`;
`_process_chunk_batch` runs one generation per list element. -/
def batchCoords {H : Type} (batch : List (Coord × List H)) : List Coord :=
  batch.map (fun e => e.1)

/-- The result deliveries of `_process_batches` for one batch: every future
registered under a coordinate is resolved with that coordinate's single
generation result (`results[i]`). -/
def batchAssignments {H R : Type} (gen : Coord → R) :
    List (Coord × List H) → List (H × R)
  | [] => []
  | (c, fs) :: rest => fs.map (fun f => (f, gen c)) ++ batchAssignments gen rest

/-- All handles pending in a map (used to state that handles are distinct). -/
def pendingHandles {H : Type} (pending : List (Coord × List H)) : List H :=
  (pending.map (fun e => e.2)).flatten

/-! ## Renderer chunk queue (server/optimized_renderer.py, lines 42, 138-146) -/

/-- An `asyncio.Queue` with `maxsize`; items in FIFO order. -/
structure AsyncQueue (α : Type) where
  maxsize : Nat
  items : List α

/-- Outcome of awaiting `asyncio.Queue.put(item)`: when the queue is full the
coroutine suspends until a consumer frees a slot — it never raises
`QueueFull` (only `put_nowait` does). -/
inductive PutOutcome (α : Type) where
  | enqueued (q : AsyncQueue α) : PutOutcome α
  | suspended : PutOutcome α
  | raised (e : PyExn) : PutOutcome α

/-- `asyncio.Queue.put`: full (`0 < maxsize ≤ len(items)`) means suspend,
otherwise append. -/
def AsyncQueue.put {α : Type} (q : AsyncQueue α) (item : α) : PutOutcome α :=
  if 0 < q.maxsize ∧ q.maxsize ≤ q.items.length then .suspended
  else .enqueued ⟨q.maxsize, q.items ++ [item]⟩

/-- Result of the enqueue step of `_fetch_and_queue_chunk` /
`_load_all_chunks_background` for one fetched chunk. -/
inductive EnqueueResult (α : Type) where
  | queued (q : AsyncQueue α) : EnqueueResult α
  | dropped (q : AsyncQueue α) : EnqueueResult α
  | blocked : EnqueueResult α
  | propagated (e : PyExn) : EnqueueResult α

/-- The enqueue step of chunk streaming:
`try: await self.new_chunks_queue.put(chunk_data) except asyncio.QueueFull: pass`.
The handler turns a raised `QueueFull` into a silent drop that leaves the
queue unchanged; any other outcome of `put` passes through. -/
def fetchAndQueueStep {α : Type} (q : AsyncQueue α) (chunk : α) : EnqueueResult α :=
  match q.put chunk with
  | .enqueued q' => .queued q'
  | .suspended => .blocked
  | .raised e => if e = PyExn.queueFull then .dropped q else .propagated e

/-- The renderer's bounded queue, `asyncio.Queue(maxsize=1000)`, at capacity. -/
def fullRendererQueue : AsyncQueue Nat := ⟨1000, List.replicate 1000 0⟩

/-! ## CPU terrain generation (server/chunk_processor.py, lines 384-479)

The float32 arithmetic of `_generate_optimized_chunk_cpu` is idealized over
the real numbers (`Real.sin`/`Real.cos` for `np.sin`/`np.cos`); the chunk
layout (`chunk[i, j, k]`, world coordinates `16*x + i` etc., generation
constants) follows the source.  The six `np.random.random(chunk.shape) <
density` draws read NumPy's global generator, which is never seeded from the
coordinate: each invocation observes fresh randomness, so the draws are an
explicit argument here and one invocation of the Python routine corresponds
to one choice of `OreDraws`. -/

/-- The boolean masks `np.random.random(chunk.shape) < self.resource_density[r]`
drawn by one invocation, one independent array per resource. -/
structure OreDraws where
  coal : Fin 16 → Fin 16 → Fin 16 → Bool
  iron : Fin 16 → Fin 16 → Fin 16 → Bool
  gold : Fin 16 → Fin 16 → Fin 16 → Bool
  diamond : Fin 16 → Fin 16 → Fin 16 → Bool
  redstone : Fin 16 → Fin 16 → Fin 16 → Bool
  lapis : Fin 16 → Fin 16 → Fin 16 → Bool

/-- The multi-octave loop building `height_map`: per octave the three periodic
terms are added, then the amplitude halves and the frequency doubles. -/
noncomputable def octaveSum : Nat → ℝ → ℝ → ℝ → ℝ → ℝ
  | 0, _, _, _, _ => 0
  | n + 1, amp, freq, wx, wz =>
    (Real.sin (wx * freq) * amp + Real.cos (wz * freq) * amp +
      Real.sin ((wx + wz) * (freq * 0.5)) * (amp * 0.5)) +
    octaveSum n (amp * 0.5) (freq * 2) wx wz

/-- `height_map` at one world column: 5 octaves starting from amplitude 64 and
frequency 0.01, plus the base height 64, plus the biome modulation
`sin(world_x * 0.001) * cos(world_z * 0.001) * 16`. -/
noncomputable def heightMap (wx wz : ℝ) : ℝ :=
  octaveSum 5 64 0.01 wx wz + 64 + Real.sin (wx * 0.001) * Real.cos (wz * 0.001) * 16

/-- The `stone_mask` condition at one cell: `world_y >= 1 and world_y <
height_map - 5`. -/
noncomputable def stoneMask (x y z : ℤ) (i j k : Fin 16) : Prop :=
  1 ≤ 16 * y + (j : ℤ) ∧
    ((16 * y + (j : ℤ) : ℤ) : ℝ) < heightMap ((16 * x + (i : ℤ) : ℤ) : ℝ) ((16 * z + (k : ℤ) : ℤ) : ℝ) - 5

/-- The `stone_mask.any()` gate in front of the ore block. -/
def hasStone (x y z : ℤ) : Prop := ∃ i j k, stoneMask x y z i j k

/-- The `cave_mask` condition at one cell:
`abs(cave_noise1 + cave_noise2) < 0.1 and world_y > 5 and world_y < height_map - 5`. -/
noncomputable def caveMask (x y z : ℤ) (i j k : Fin 16) : Prop :=
  let wx : ℝ := ((16 * x + (i : ℤ) : ℤ) : ℝ)
  let wy : ℝ := ((16 * y + (j : ℤ) : ℤ) : ℝ)
  let wz : ℝ := ((16 * z + (k : ℤ) : ℤ) : ℝ)
  |Real.sin (wx * 0.1) * Real.cos (wy * 0.1) * Real.sin (wz * 0.1) +
      Real.cos (wx * 0.08) * Real.sin (wy * 0.08) * Real.cos (wz * 0.08)| < 0.1 ∧
    5 < 16 * y + (j : ℤ) ∧ wy < heightMap wx wz - 5

open Classical in
/-- The layered terrain value of one cell before ores and caves: start from 0
(air), then apply the bedrock, stone, dirt and grass mask assignments in the
source's order (later assignments overwrite earlier ones). -/
noncomputable def baseBlock (x y z : ℤ) (i j k : Fin 16) : ℕ :=
  let wyI : ℤ := 16 * y + (j : ℤ)
  let wx : ℝ := ((16 * x + (i : ℤ) : ℤ) : ℝ)
  let wy : ℝ := (wyI : ℝ)
  let wz : ℝ := ((16 * z + (k : ℤ) : ℤ) : ℝ)
  let hm := heightMap wx wz
  let v1 : ℕ := if wyI < 1 then 7 else 0
  let v2 : ℕ := if 1 ≤ wyI ∧ wy < hm - 5 then 1 else v1
  let v3 : ℕ := if hm - 5 ≤ wy ∧ wy < hm then 2 else v2
  if hm ≤ wy ∧ wy < hm + 1 then 3 else v3

open Classical in
/-- The six ore mask assignments applied to a cell value `b`, in source order
(coal 16, iron 15, gold 14, diamond 56, redstone 73, lapis 21), each gated on
the whole-chunk `stone_mask.any()` check, the resource's Y band, the cell's
`stone_mask` and that invocation's random draw. -/
noncomputable def oreBlock (x y z : ℤ) (d : OreDraws) (i j k : Fin 16) (b : ℕ) : ℕ :=
  let wyI : ℤ := 16 * y + (j : ℤ)
  let gate := hasStone x y z
  let stone := stoneMask x y z i j k
  let v5 : ℕ := if gate ∧ (5 < wyI ∧ wyI < 100) ∧ stone ∧ d.coal i j k then 16 else b
  let v6 : ℕ := if gate ∧ (5 < wyI ∧ wyI < 64) ∧ stone ∧ d.iron i j k then 15 else v5
  let v7 : ℕ := if gate ∧ (5 < wyI ∧ wyI < 32) ∧ stone ∧ d.gold i j k then 14 else v6
  let v8 : ℕ := if gate ∧ (1 < wyI ∧ wyI < 16) ∧ stone ∧ d.diamond i j k then 56 else v7
  let v9 : ℕ := if gate ∧ (1 < wyI ∧ wyI < 16) ∧ stone ∧ d.redstone i j k then 73 else v8
  if gate ∧ (10 < wyI ∧ wyI < 40) ∧ stone ∧ d.lapis i j k then 21 else v9

open Classical in
/-- The value of one cell of `_generate_optimized_chunk_cpu(x, y, z)` for one
choice of random draws: layers, then ores, then the cave carve (the final
assignment, which overwrites ore and stone with air). -/
noncomputable def blockValue (x y z : ℤ) (d : OreDraws) (i j k : Fin 16) : ℕ :=
  if caveMask x y z i j k then 0
  else oreBlock x y z d i j k (baseBlock x y z i j k)

/-- The full 16×16×16 grid returned by one invocation of
`_generate_optimized_chunk_cpu(x, y, z)` observing random draws `d`. -/
noncomputable def generateChunkCPU (x y z : ℤ) (d : OreDraws) :
    Fin 16 → Fin 16 → Fin 16 → ℕ :=
  fun i j k => blockValue x y z d i j k

/-- The block-type codes the ore pass can write. -/
def oreCodes : List ℕ := [16, 15, 14, 56, 73, 21]

/-- An invocation whose six random arrays are all `False` everywhere. -/
def noDraws : OreDraws :=
  ⟨fun _ _ _ => false, fun _ _ _ => false, fun _ _ _ => false,
   fun _ _ _ => false, fun _ _ _ => false, fun _ _ _ => false⟩

/-- An invocation whose coal array is `True` exactly at cell `(0, 6, 0)` and
whose other arrays are all `False`. -/
def coalDraw : OreDraws :=
  ⟨fun i j k => i = 0 ∧ j = 6 ∧ k = 0, fun _ _ _ => false, fun _ _ _ => false,
   fun _ _ _ => false, fun _ _ _ => false, fun _ _ _ => false⟩

/-! ## Concrete codec inputs used by witnesses and counterexamples -/

/-- The stream `"AAAAAA*255"`: one base64 token repeated to fill all 256
slots. -/
def sampleFullStream : List Char :=
  ['A', 'A', 'A', 'A', 'A', 'A', '*', '2', '5', '5']

/-- The stream `"AAAAAA*254,1"`: 255 slots from one repeated base64 token,
then a bare-integer back-reference to output position 1 — a position that was
produced, but by repeat expansion. -/
def repeatRefStream : List Char :=
  ['A', 'A', 'A', 'A', 'A', 'A', '*', '2', '5', '4', ',', '1']

/-- The stream `"AAAAAA*254,0"`: as above but referencing position 0, where
the base64 token itself started. -/
def startRefStream : List Char :=
  ['A', 'A', 'A', 'A', 'A', 'A', '*', '2', '5', '4', ',', '0']

/-! # Theorems -/

/-! ## C1: pack/unpack round trip -/

theorem packPixels_length (ps : List Nat) : (packPixels ps).length = 4 * ps.length := by
  induction ps with
  | nil => rfl
  | cons p ps ih => simp [packPixels, le32Bytes, ih]; ring

theorem packHeights_length (hs : List Nat) : (packHeights hs).length = hs.length := by
  induction hs with
  | nil => rfl
  | cons h hs ih => simp [packHeights, ih]

theorem readU32s_packPixels (ps : List Nat) (rest : List Nat)
    (hv : ∀ p ∈ ps, p < 4294967296) :
    readU32s ps.length (packPixels ps ++ rest) = some (ps, rest) := by
  induction ps with
  | nil => rfl
  | cons p ps ih =>
    have hp : p < 4294967296 := hv p (List.mem_cons_self p ps)
    have hrec := ih (fun q hq => hv q (List.mem_cons_of_mem p hq))
    simp only [packPixels, le32Bytes, List.length_cons, List.cons_append, List.nil_append,
      List.append_assoc, List.append_eq, readU32s]
    rw [hrec]
    have hval : leU32 (p % 4294967296 % 256) (p % 4294967296 / 256 % 256)
        (p % 4294967296 / 65536 % 256) (p % 4294967296 / 16777216 % 256) = p := by
      unfold leU32; omega
    rw [hval]

theorem readU8s_packHeights (hs : List Nat) (rest : List Nat)
    (hv : ∀ h ∈ hs, h < 256) :
    readU8s hs.length (packHeights hs ++ rest) = some (hs, rest) := by
  induction hs with
  | nil => rfl
  | cons h hs ih =>
    have hh : h < 256 := hv h (List.mem_cons_self h hs)
    have hrec := ih (fun q hq => hv q (List.mem_cons_of_mem h hq))
    simp only [packHeights, List.length_cons, List.cons_append, List.append_eq, readU8s]
    rw [hrec, Nat.mod_eq_of_lt hh]

/-- C1: for any pair of 256-length lists of in-range values,
`unpack_chunk_binary (pack_chunk_binary pixels heights)` returns the same
pixels and heights (round trip over the fixed layout: 4-byte magic, 2-byte
version, 256 little-endian uint32 pixels, 256 height bytes). -/
theorem pack_unpack_roundtrip (pixels heights : List Nat)
    (hp : pixels.length = 256) (hh : heights.length = 256)
    (hpv : ∀ p ∈ pixels, p < 4294967296) (hhv : ∀ h ∈ heights, h < 256) :
    ∃ blob, pack_chunk_binary pixels heights = .ok blob ∧
      unpack_chunk_binary blob = .ok (pixels, heights) := by
  refine ⟨[67, 72, 78, 75] ++ [1, 0] ++ packPixels pixels ++ packHeights heights, ?_, ?_⟩
  · unfold pack_chunk_binary
    rw [if_pos ⟨hp, hh⟩]
  · unfold unpack_chunk_binary
    have hlen : ([67, 72, 78, 75] ++ [1, 0] ++ packPixels pixels ++ packHeights heights).length
        = 1286 := by
      simp [packPixels_length, packHeights_length, hp, hh]
    rw [hlen, if_neg (by omega)]
    have hshape : [67, 72, 78, 75] ++ [1, 0] ++ packPixels pixels ++ packHeights heights
        = 67 :: 72 :: 78 :: 75 :: 1 :: 0 :: (packPixels pixels ++ packHeights heights) := by
      simp
    rw [hshape]
    have hread32 : readU32s 256 (packPixels pixels ++ packHeights heights)
        = some (pixels, packHeights heights) := by
      rw [← hp]; exact readU32s_packPixels pixels (packHeights heights) hpv
    have hread8 : readU8s 256 (packHeights heights) = some (heights, []) := by
      rw [← hh]
      have := readU8s_packHeights heights [] hhv
      simpa using this
    simp [hread32, hread8]

/-- C1 witness: the round trip evaluated at the all-zero 256-length pair. -/
theorem pack_unpack_roundtrip_witness :
    ∃ blob, pack_chunk_binary (List.replicate 256 0) (List.replicate 256 0) = .ok blob ∧
      unpack_chunk_binary blob = .ok (List.replicate 256 0, List.replicate 256 0) :=
  pack_unpack_roundtrip (List.replicate 256 0) (List.replicate 256 0)
    (List.length_replicate 256 0) (List.length_replicate 256 0)
    (fun p hp => by rw [List.eq_of_mem_replicate hp]; omega)
    (fun h hh => by rw [List.eq_of_mem_replicate hh]; omega)

/-! ## Decoder invariants (C2, C3, C4) -/

theorem charIndex_lt (c : Char) (l : List Char) (v : Nat) (h : charIndex c l = some v) :
    v < l.length := by
  induction l generalizing v with
  | nil => exact Option.noConfusion h
  | cons d ds ih =>
    unfold charIndex at h
    by_cases hd : d = c
    · rw [if_pos hd] at h
      injection h with h
      simp [← h]
    · rw [if_neg hd] at h
      cases hm : charIndex c ds with
      | none => rw [hm] at h; exact Option.noConfusion h
      | some w =>
        rw [hm] at h
        simp only [Option.map_some', Option.some.injEq] at h
        have := ih w hm
        simp only [List.length_cons]
        omega

theorem b64Val_le (c : Char) (v : Nat) (h : b64Val c = some v) : v ≤ 63 := by
  have hlt := charIndex_lt c b64Alphabet v h
  have hlen : b64Alphabet.length = 64 := rfl
  omega

theorem b64TokenValue_lt (t : List Char) (v : Nat) (h : b64TokenValue t = some v) :
    v < 4294967296 := by
  unfold b64TokenValue at h
  cases hb : b64DecodeToken t with
  | none => rw [hb] at h; exact Option.noConfusion h
  | some raw =>
    rw [hb] at h
    simp only [Option.map_some', Option.some.injEq] at h
    unfold b64DecodeToken at hb
    split at hb
    · next c0 c1 c2 c3 c4 c5 =>
      simp only [Option.bind_eq_bind, Option.bind_eq_some] at hb
      obtain ⟨v0, h0, v1, h1, v2, h2, v3, h3, v4, h4, v5, h5, hraw⟩ := hb
      have b0 := b64Val_le _ _ h0
      have b1 := b64Val_le _ _ h1
      have b2 := b64Val_le _ _ h2
      have b3 := b64Val_le _ _ h3
      have b4 := b64Val_le _ _ h4
      have b5 := b64Val_le _ _ h5
      injection hraw with hraw
      subst hraw
      simp only [List.getD_cons_zero, List.getD_cons_succ] at h
      subst h
      unfold leU32
      omega
    · simp at hb

theorem forall₂_replicate {α β : Type} {R : α → β → Prop} {a : α} {b : β} (h : R a b) :
    ∀ n, List.Forall₂ R (List.replicate n a) (List.replicate n b) := by
  intro n
  induction n with
  | zero => simp [List.replicate_zero]
  | succ n ih => rw [List.replicate_succ, List.replicate_succ]; exact List.Forall₂.cons h ih

theorem forall₂_mem_left {α β : Type} {R : α → β → Prop} {l₁ : List α} {l₂ : List β}
    (h : List.Forall₂ R l₁ l₂) : ∀ a ∈ l₁, ∃ b, R a b := by
  induction h with
  | nil => intro a ha; simp at ha
  | cons hr _ ih =>
    intro a ha
    rcases List.mem_cons.1 ha with rfl | ha'
    · exact ⟨_, hr⟩
    · exact ih a ha'

theorem forall₂_mem_right {α β : Type} {R : α → β → Prop} {l₁ : List α} {l₂ : List β}
    (h : List.Forall₂ R l₁ l₂) : ∀ b ∈ l₂, ∃ a, R a b := by
  induction h with
  | nil => intro b hb; simp at hb
  | cons hr _ ih =>
    intro b hb
    rcases List.mem_cons.1 hb with rfl | hb'
    · exact ⟨_, hr⟩
    · exact ih b hb'

theorem lookupIdx_mem (m : List (Int × Nat)) (k : Int) (v : Nat)
    (h : lookupIdx m k = some v) : (k, v) ∈ m := by
  unfold lookupIdx at h
  cases hf : m.find? (fun kv => kv.1 = k) with
  | none => rw [hf] at h; exact Option.noConfusion h
  | some kv =>
    rw [hf] at h
    simp only [Option.map_some', Option.some.injEq] at h
    have hmem := List.mem_of_find?_eq_some hf
    have hp := List.find?_some hf
    simp only [decide_eq_true_eq] at hp
    obtain ⟨k', v'⟩ := kv
    simp only at hp h
    subst hp
    subst h
    exact hmem

theorem stepElem_inv {st st' : DecSt} {e : List Char} (hinv : StInv st)
    (h : stepElem st e = .ok st') : StInv st' := by
  obtain ⟨hf, hc, ht⟩ := hinv
  simp only [stepElem] at h
  split at h
  · -- 6-character base64 token
    split at h
    · simp at h
    · next value hv =>
      simp only [Except.ok.injEq] at h
      subst h
      have hvlt : value < 4294967296 := b64TokenValue_lt _ _ hv
      refine ⟨?_, ?_, ?_⟩
      · exact List.rel_append hf (forall₂_replicate ⟨value, hvlt, rfl, rfl⟩ _)
      · simp [appendValue, List.length_append, List.length_replicate, hc]
      · intro kv hkv
        simp only [appendValue, List.mem_cons] at hkv
        simp only [appendValue]
        rcases hkv with rfl | hkv
        · refine ⟨Int.ofNat_nonneg _, ?_, hvlt⟩
          push_cast
          omega
        · have := ht kv hkv
          refine ⟨this.1, ?_, this.2.2⟩
          have h21 := this.2.1
          push_cast
          push_cast at h21
          omega
  · -- bare integer back-reference
    split at h
    · simp at h
    · next refIndex hp =>
      split at h
      · simp at h
      · next value hl =>
        simp only [Except.ok.injEq] at h
        subst h
        have hvlt : value < 4294967296 := (ht _ (lookupIdx_mem _ _ _ hl)).2.2
        refine ⟨?_, ?_, ?_⟩
        · exact List.rel_append hf (forall₂_replicate ⟨value, hvlt, rfl, rfl⟩ _)
        · simp [appendValue, List.length_append, List.length_replicate, hc]
        · intro kv hkv
          simp only [appendValue] at hkv
          simp only [appendValue]
          have := ht kv hkv
          refine ⟨this.1, ?_, this.2.2⟩
          have h21 := this.2.1
          push_cast
          push_cast at h21
          omega

theorem decodeElems_inv {es : List (List Char)} :
    ∀ {st st' : DecSt}, StInv st → decodeElems st es = .ok st' → StInv st' := by
  induction es with
  | nil => intro st st' hinv h; simp only [decodeElems, Except.ok.injEq] at h; subst h; exact hinv
  | cons e es ih =>
    intro st st' hinv h
    simp only [decodeElems] at h
    cases hs : stepElem st e with
    | error err => rw [hs] at h; simp at h
    | ok st1 =>
      rw [hs] at h
      exact ih (stepElem_inv hinv hs) h

theorem initSt_inv : StInv initSt := by
  refine ⟨List.Forall₂.nil, rfl, ?_⟩
  intro kv hkv
  simp [initSt] at hkv

/-- C2: whenever `decode_getchunkdata` succeeds it returns exactly 256 pixels
and 256 heights; equivalently, any stream whose fully expanded output length
is not 256 fails with a decode error (the two accumulators always grow in
lockstep and the final length check admits only 256). -/
theorem decode_getchunkdata_ok_lengths (s : List Char) (p h : List Nat)
    (hd : decode_getchunkdata s = .ok (p, h)) : p.length = 256 ∧ h.length = 256 := by
  simp only [decode_getchunkdata] at hd
  split at hd
  · exact absurd hd (by simp)
  · split at hd
    · exact absurd hd (by simp)
    · next st heq =>
      split at hd
      · next hlen =>
        simp only [Except.ok.injEq, Prod.mk.injEq] at hd
        obtain ⟨rfl, rfl⟩ := hd
        have hinv := decodeElems_inv initSt_inv heq
        exact ⟨hlen, by rw [← hinv.1.length_eq]; exact hlen⟩
      · exact absurd hd (by simp)

set_option maxRecDepth 100000 in
/-- C2 witness: the stream `"AAAAAA*255"` decodes successfully and the
returned lists have length 256. -/
theorem decode_getchunkdata_ok_lengths_witness :
    (List.replicate 256 (4278190080 : Nat)).length = 256 ∧
      (List.replicate 256 (0 : Nat)).length = 256 :=
  decode_getchunkdata_ok_lengths sampleFullStream
    (List.replicate 256 4278190080) (List.replicate 256 0) (by rfl)

/-- C4: on any successful decode, pixels and heights are pairwise produced
from a resolved 32-bit value — the pixel keeps the value's low 24 bits with
the alpha byte forced to `0xFF` and the height is the value's most
significant byte — so every pixel's top byte is 255 and every height is in
`[0, 255]`. -/
theorem decode_getchunkdata_pixel_height_shape (s : List Char) (p h : List Nat)
    (hd : decode_getchunkdata s = .ok (p, h)) :
    List.Forall₂ PxHt p h ∧ (∀ px ∈ p, px / 16777216 = 255) ∧ ∀ ht ∈ h, ht ≤ 255 := by
  have hforall : List.Forall₂ PxHt p h := by
    simp only [decode_getchunkdata] at hd
    split at hd
    · exact absurd hd (by simp)
    · split at hd
      · exact absurd hd (by simp)
      · next st heq =>
        split at hd
        · simp only [Except.ok.injEq, Prod.mk.injEq] at hd
          obtain ⟨rfl, rfl⟩ := hd
          exact (decodeElems_inv initSt_inv heq).1
        · exact absurd hd (by simp)
  refine ⟨hforall, ?_, ?_⟩
  · intro px hpx
    obtain ⟨ht, v, _, hpxv, _⟩ := forall₂_mem_left hforall px hpx
    subst hpxv
    omega
  · intro ht hht
    obtain ⟨px, v, _, _, hhtv⟩ := forall₂_mem_right hforall ht hht
    subst hhtv
    omega

set_option maxRecDepth 100000 in
/-- C4 witness: the shape facts evaluated on the decode of `"AAAAAA*255"`. -/
theorem decode_getchunkdata_pixel_height_shape_witness :
    List.Forall₂ PxHt (List.replicate 256 4278190080) (List.replicate 256 0) ∧
      (∀ px ∈ List.replicate 256 (4278190080 : Nat), px / 16777216 = 255) ∧
      ∀ ht ∈ List.replicate 256 (0 : Nat), ht ≤ 255 :=
  decode_getchunkdata_pixel_height_shape sampleFullStream
    (List.replicate 256 4278190080) (List.replicate 256 0) (by rfl)

/-- The reference table built by a successful decode is exactly the
(reversed, because entries are prepended) list of positions at which a
6-character base64 token started, paired with that token's value. -/
theorem decodeElems_table (es : List (List Char)) :
    ∀ (st st' : DecSt), decodeElems st es = .ok st' →
      st'.indexToData = (b64StartTable st.curIdx es).reverse ++ st.indexToData := by
  induction es with
  | nil =>
    intro st st' h
    simp only [decodeElems, Except.ok.injEq] at h
    subst h
    simp [b64StartTable]
  | cons e es ih =>
    intro st st' h
    simp only [decodeElems] at h
    cases hs : stepElem st e with
    | error err => rw [hs] at h; exact absurd h (by simp)
    | ok st1 =>
      rw [hs] at h
      have ht := ih st1 st' h
      simp only [stepElem] at hs
      split at hs
      · next h6 =>
        split at hs
        · exact absurd hs (by simp)
        · next value hv =>
          simp only [Except.ok.injEq] at hs
          subst hs
          rw [ht]
          simp only [b64StartTable, h6, if_true, hv, appendValue, List.reverse_cons,
            List.append_assoc, List.cons_append, List.nil_append]
      · next h6 =>
        split at hs
        · exact absurd hs (by simp)
        · next refIndex hp =>
          split at hs
          · exact absurd hs (by simp)
          · next value hl =>
            simp only [Except.ok.injEq] at hs
            subst hs
            rw [ht]
            simp only [b64StartTable, h6, if_false, appendValue]

/-- C3 (amended): a bare decimal-integer token is resolved against
`index_to_data`, which after any successful prefix of the stream maps exactly
the output positions at which an earlier 6-character base64 token itself
started to that token's value; every such position is strictly below the
number of produced slots.  Consequently a bare token referencing such a
position yields that token's value, and referencing any other position —
including positions that exist but were filled by `*N` repeat expansion or by
back-reference tokens, and positions not yet produced — fails with a decode
error. -/
theorem decode_backref_resolution (es : List (List Char)) (st : DecSt)
    (h : decodeElems initSt es = .ok st) :
    st.indexToData = (b64StartTable 0 es).reverse ∧
      (∀ kv ∈ st.indexToData, 0 ≤ kv.1 ∧ kv.1 < (st.curIdx : Int)) ∧
      ∀ (elem tok : List Char) (k : Int),
        splitChar '*' elem [] = [tok] → ¬ tok.length = 6 → pyParseInt tok = some k →
        stepElem st elem =
          match lookupIdx st.indexToData k with
          | some v => .ok (appendValue st v 1)
          | none => .error (.unknownIndex k) := by
  refine ⟨?_, ?_, ?_⟩
  · have := decodeElems_table es initSt st h
    simpa [initSt] using this
  · intro kv hkv
    have hinv := decodeElems_inv initSt_inv h
    exact ⟨(hinv.2.2 kv hkv).1, (hinv.2.2 kv hkv).2.1⟩
  · intro elem tok k h1 h2 h3
    simp only [stepElem, h1, List.headD_cons, dupCountOf, h2, if_false, h3]
    cases hl : lookupIdx st.indexToData k with
    | none => rfl
    | some v => rfl

set_option maxRecDepth 100000 in
/-- C3 counterexample: in `"AAAAAA*254,1"` the bare token `1` references
output position 1, which was produced (255 slots already exist, filled by the
`*254` repeat expansion of the base64 token at position 0), yet decoding
raises a reference-to-unknown-index decode error instead of yielding the
value occupying that position; the same stream referencing position 0 — where
the base64 token itself started — succeeds.  This refutes the claim that a
back-reference may target any earlier fully-expanded output position,
including repeat-filled ones. -/
theorem decode_repeat_backref_counterexample :
    decode_getchunkdata repeatRefStream = .error (.unknownIndex 1) ∧
      decode_getchunkdata startRefStream =
        .ok (List.replicate 256 4278190080, List.replicate 256 0) := by
  constructor
  · rfl
  · rfl

/-- C3 witness: after decoding `"AAAAAA*2"` (three slots produced, table
`{0 ↦ 0}`), the amended resolution rule applied to the bare token `1` gives a
reference-to-unknown-index error. -/
theorem decode_backref_resolution_witness :
    stepElem ⟨[((0 : Int), 0)], List.replicate 3 4278190080, List.replicate 3 0, 3⟩ ['1'] =
      .error (.unknownIndex 1) := by
  have h := decode_backref_resolution [['A', 'A', 'A', 'A', 'A', 'A', '*', '2']]
    ⟨[((0 : Int), 0)], List.replicate 3 4278190080, List.replicate 3 0, 3⟩ (by rfl)
  have h3 := h.2.2 ['1'] ['1'] 1 (by rfl) (by decide) (by rfl)
  rw [h3]
  rfl

/-! ## ChunkCache theorems (C5, C10) -/

theorem putAll_maxSize {α : Type} (f : Coord → α) :
    ∀ (cs : List Coord) (st : ChunkCache α), (putAll f st cs).maxSize = st.maxSize := by
  intro cs
  induction cs with
  | nil => intro st; rfl
  | cons c rest ih =>
    intro st
    simp only [putAll]
    rw [ih]
    simp [ChunkCache.put]

theorem putAll_storage_notmem {α : Type} (f : Coord → α) :
    ∀ (cs : List Coord) (st : ChunkCache α) (c : Coord),
      c ∉ cs → (putAll f st cs).storage c = st.storage c := by
  intro cs
  induction cs with
  | nil => intro st c _; rfl
  | cons c0 rest ih =>
    intro st c hc
    simp only [putAll]
    rw [ih _ _ (fun h => hc (List.mem_cons_of_mem c0 h))]
    simp only [ChunkCache.put, if_pos]
    have : ¬ c = c0 := fun h => hc (h ▸ List.mem_cons_self c0 rest)
    simp [this]

theorem putAll_storage_mem {α : Type} (f : Coord → α) :
    ∀ (cs : List Coord) (st : ChunkCache α) (c : Coord),
      cs.Nodup → c ∈ cs → (putAll f st cs).storage c = some (f c) := by
  intro cs
  induction cs with
  | nil => intro st c _ hc; simp at hc
  | cons c0 rest ih =>
    intro st c hnd hc
    rcases List.mem_cons.1 hc with rfl | hc'
    · simp only [putAll]
      rw [putAll_storage_notmem f rest _ c (List.nodup_cons.1 hnd).1]
      simp [ChunkCache.put]
    · exact ih _ c (List.nodup_cons.1 hnd).2 hc'

theorem putAll_cache_drop {α : Type} (f : Coord → α) :
    ∀ (cs : List Coord) (st : ChunkCache α),
      ((st.cache.map Prod.fst) ++ cs).Nodup → st.cache.length ≤ st.maxSize →
      (putAll f st cs).cache =
        (st.cache ++ cs.map (fun c => (c, f c))).drop
          (st.cache.length + cs.length - st.maxSize) := by
  intro cs
  induction cs with
  | nil =>
    intro st hnd hle
    simp only [putAll, List.map_nil, List.append_nil, List.length_nil, Nat.add_zero]
    rw [Nat.sub_eq_zero_of_le hle, List.drop_zero]
  | cons c rest ih =>
    intro st hnd hle
    have hcnotin : c ∉ st.cache.map Prod.fst := by
      have hdisj := List.disjoint_of_nodup_append hnd
      exact fun hc => hdisj hc (List.mem_cons_self c rest)
    have hfilter : st.cache.filter (fun kv => ¬ kv.1 = c) = st.cache := by
      rw [List.filter_eq_self]
      intro kv hkv
      simp only [decide_eq_true_eq]
      intro hkc
      exact hcnotin (hkc ▸ List.mem_map_of_mem Prod.fst hkv)
    have hmv : cacheMoveToEnd st.cache c (f c) = st.cache ++ [(c, f c)] := by
      unfold cacheMoveToEnd
      rw [hfilter]
    have hput_cache : (st.put c (f c) true).cache =
        if st.maxSize < st.cache.length + 1 then (st.cache ++ [(c, f c)]).tail
        else st.cache ++ [(c, f c)] := by
      simp [ChunkCache.put, hmv, List.length_append]
    have hput_max : (st.put c (f c) true).maxSize = st.maxSize := by
      simp [ChunkCache.put]
    have hnd' : ((st.cache.map Prod.fst ++ [c]) ++ rest).Nodup := by
      rw [← List.append_cons]
      exact hnd
    simp only [putAll]
    by_cases hover : st.maxSize < st.cache.length + 1
    · have hlen_eq : st.cache.length = st.maxSize := by omega
      have hc1 : (st.put c (f c) true).cache = (st.cache ++ [(c, f c)]).drop 1 := by
        rw [hput_cache, if_pos hover, List.drop_one]
      have hlen1 : (st.put c (f c) true).cache.length = st.maxSize := by
        rw [hc1, List.length_drop, List.length_append]
        simp
        omega
      have hkeys1 : (st.put c (f c) true).cache.map Prod.fst
          = (st.cache.map Prod.fst ++ [c]).drop 1 := by
        rw [hc1, List.map_drop, List.map_append]
        rfl
      have hnd1 : (((st.put c (f c) true).cache.map Prod.fst) ++ rest).Nodup := by
        rw [hkeys1]
        refine List.Nodup.sublist ?_ hnd'
        exact (List.drop_sublist 1 _).append_right rest
      have := ih (st.put c (f c) true) hnd1 (by rw [hput_max]; omega)
      rw [this, hput_max, hlen1, hc1]
      have hidx : st.maxSize + rest.length - st.maxSize = rest.length := by omega
      rw [hidx]
      have hsplit : List.drop 1 (st.cache ++ [(c, f c)]) ++ rest.map (fun c => (c, f c))
          = List.drop 1 ((st.cache ++ [(c, f c)]) ++ rest.map (fun c => (c, f c))) :=
        (List.drop_append_of_le_length (by simp)).symm
      rw [hsplit]
      rw [List.drop_drop]
      have harr : (st.cache ++ [(c, f c)]) ++ rest.map (fun c => (c, f c))
          = st.cache ++ (c :: rest).map (fun c => (c, f c)) := by
        simp
      rw [harr]
      congr 1
      simp only [List.length_cons]
      omega
    · have hc1 : (st.put c (f c) true).cache = st.cache ++ [(c, f c)] := by
        rw [hput_cache, if_neg hover]
      have hkeys1 : (st.put c (f c) true).cache.map Prod.fst
          = st.cache.map Prod.fst ++ [c] := by
        rw [hc1, List.map_append]
        rfl
      have hnd1 : (((st.put c (f c) true).cache.map Prod.fst) ++ rest).Nodup := by
        rw [hkeys1]
        exact hnd'
      have := ih (st.put c (f c) true) hnd1
        (by rw [hput_max, hc1, List.length_append]; simp; omega)
      rw [this, hput_max, hc1]
      have harr : (st.cache ++ [(c, f c)]) ++ rest.map (fun c => (c, f c))
          = st.cache ++ (c :: rest).map (fun c => (c, f c)) := by
        simp
      rw [harr]
      congr 1
      simp only [List.length_append, List.length_cons, List.length_map]
      simp
      omega

/-- C5: filling a cache of capacity `N` (with storage persistence) with `N+1`
distinct coordinates evicts exactly the least-recently-accessed coordinate
and only its in-memory entry: the storage record of the evicted coordinate is
intact, and a subsequent `get` of it succeeds via the storage fallback,
re-inserts it at the most-recently-used end of the cache, and leaves storage
unchanged (no re-persist on the fallback path). -/
theorem cache_eviction_lru {α : Type} (f : Coord → α) (N : Nat) (c0 : Coord)
    (rest : List Coord) (s0 : Coord → Option α) (st1 : ChunkCache α)
    (hN : 0 < N) (hlen : rest.length = N) (hnd : (c0 :: rest).Nodup)
    (hst : st1 = putAll f ⟨N, [], s0, 0, 0⟩ (c0 :: rest)) :
    st1.cache = rest.map (fun c => (c, f c)) ∧
      st1.storage c0 = some (f c0) ∧
      (st1.get c0).1 = some (f c0) ∧
      (st1.get c0).2.storage = st1.storage ∧
      (st1.get c0).2.cache = (rest.map (fun c => (c, f c))).tail ++ [(c0, f c0)] := by
  have hc0notin : c0 ∉ rest := (List.nodup_cons.1 hnd).1
  have hcache : st1.cache = rest.map (fun c => (c, f c)) := by
    rw [hst, putAll_cache_drop f (c0 :: rest) ⟨N, [], s0, 0, 0⟩ (by simpa using hnd)
      (by simp)]
    simp only [List.map_cons, List.nil_append, List.length_nil, List.length_cons,
      Nat.zero_add, hlen]
    have hidx : N + 1 - N = 1 := by omega
    rw [hidx, List.drop_one, List.tail_cons]
  have hmax : st1.maxSize = N := by rw [hst, putAll_maxSize]
  have hstor : ∀ c ∈ c0 :: rest, st1.storage c = some (f c) := by
    intro c hc
    rw [hst]
    exact putAll_storage_mem f (c0 :: rest) _ c hnd hc
  have hsc0 : st1.storage c0 = some (f c0) := hstor c0 (List.mem_cons_self c0 rest)
  have hfind : st1.cache.find? (fun kv => kv.1 = c0) = none := by
    rw [List.find?_eq_none]
    intro kv hkv
    rw [hcache] at hkv
    obtain ⟨c, hc, rfl⟩ := List.mem_map.1 hkv
    simp only [decide_eq_true_eq]
    exact fun h => hc0notin (h ▸ hc)
  have hfilter : st1.cache.filter (fun kv => ¬ kv.1 = c0) = st1.cache := by
    rw [List.filter_eq_self]
    intro kv hkv
    rw [hcache] at hkv
    obtain ⟨c, hc, rfl⟩ := List.mem_map.1 hkv
    simp only [decide_eq_true_eq]
    intro h
    exact hc0notin (h ▸ hc)
  have hget : st1.get c0 =
      (some (f c0), ({ st1 with missCount := st1.missCount + 1 } : ChunkCache α).put
        c0 (f c0) false) := by
    simp only [ChunkCache.get, hfind, Option.map_none', hsc0]
  refine ⟨hcache, hsc0, ?_, ?_, ?_⟩
  · rw [hget]
  · rw [hget]
    simp [ChunkCache.put]
  · rw [hget]
    have hlen2 : (cacheMoveToEnd st1.cache c0 (f c0)).length = N + 1 := by
      unfold cacheMoveToEnd
      rw [hfilter, List.length_append, hcache]
      simp [hlen]
    simp only [ChunkCache.put, Bool.false_eq_true, if_false, hlen2, hmax]
    rw [if_pos (by omega)]
    unfold cacheMoveToEnd
    rw [hfilter, hcache]
    obtain ⟨r0, rtail, rfl⟩ : ∃ r0 rtail, rest = r0 :: rtail := by
      cases rest with
      | nil => simp at hlen; omega
      | cons r0 rtail => exact ⟨r0, rtail, rfl⟩
    simp

/-- C5 witness: capacity 1, coordinates `(0,0,0)` then `(1,0,0)`, empty
initial storage, constant payload. -/
theorem cache_eviction_lru_witness :
    (putAll (fun _ => (7 : Nat)) ⟨1, [], fun _ => none, 0, 0⟩
        [((0 : Int), (0 : Int), (0 : Int)), ((1 : Int), (0 : Int), (0 : Int))]).cache
        = [(((1 : Int), (0 : Int), (0 : Int)), 7)] ∧
      (putAll (fun _ => (7 : Nat)) ⟨1, [], fun _ => none, 0, 0⟩
        [((0 : Int), (0 : Int), (0 : Int)), ((1 : Int), (0 : Int), (0 : Int))]).storage
        ((0 : Int), (0 : Int), (0 : Int)) = some 7 ∧
      ((putAll (fun _ => (7 : Nat)) ⟨1, [], fun _ => none, 0, 0⟩
        [((0 : Int), (0 : Int), (0 : Int)), ((1 : Int), (0 : Int), (0 : Int))]).get
        ((0 : Int), (0 : Int), (0 : Int))).1 = some 7 ∧
      ((putAll (fun _ => (7 : Nat)) ⟨1, [], fun _ => none, 0, 0⟩
        [((0 : Int), (0 : Int), (0 : Int)), ((1 : Int), (0 : Int), (0 : Int))]).get
        ((0 : Int), (0 : Int), (0 : Int))).2.storage
        = (putAll (fun _ => (7 : Nat)) ⟨1, [], fun _ => none, 0, 0⟩
        [((0 : Int), (0 : Int), (0 : Int)), ((1 : Int), (0 : Int), (0 : Int))]).storage ∧
      ((putAll (fun _ => (7 : Nat)) ⟨1, [], fun _ => none, 0, 0⟩
        [((0 : Int), (0 : Int), (0 : Int)), ((1 : Int), (0 : Int), (0 : Int))]).get
        ((0 : Int), (0 : Int), (0 : Int))).2.cache
        = ([(((1 : Int), (0 : Int), (0 : Int)), (7 : Nat))]).tail
          ++ [(((0 : Int), (0 : Int), (0 : Int)), 7)] := by
  have h := cache_eviction_lru (fun _ => (7 : Nat)) 1 ((0 : Int), (0 : Int), (0 : Int))
    [((1 : Int), (0 : Int), (0 : Int))] (fun _ => none) _
    (by decide) (by rfl) (by decide) rfl
  simpa using h

/-- C10: `get_stats` is total — the guarded division never raises
`ZeroDivisionError` — reporting hit rate 0 when no request has been counted
and `hit_count / (hit_count + miss_count)` otherwise. -/
theorem get_stats_total {α : Type} (st : ChunkCache α) :
    st.get_stats = .ok (st.cache.length, st.hitCount, st.missCount,
      if st.hitCount + st.missCount = 0 then 0
      else (st.hitCount : ℚ) / ((st.hitCount : ℚ) + (st.missCount : ℚ))) := by
  simp only [ChunkCache.get_stats, pyDivQ]
  by_cases h : st.hitCount + st.missCount = 0
  · rw [if_neg (by omega), if_pos h]
    rfl
  · rw [if_pos (by omega), if_neg h]
    have hne : ((st.hitCount + st.missCount : Nat) : ℚ) ≠ 0 := by
      exact_mod_cast h
    rw [if_neg hne]
    simp only [Nat.cast_add, Except.pure]
    rfl

/-! ## ChunkStorage.load theorems (C6) -/

/-- C6 counterexample: `ChunkStorage.load` can raise to its caller.  On a
storage state whose index lists the coordinate but whose region-directory
creation fails, `load` propagates the `OSError`: `_get_chunk_path` — and the
`region_dir.mkdir(exist_ok=True)` inside it — runs outside the `try:` block,
so its failure is not converted to `None`.  This refutes the claim that
`load` never raises for every coordinate and failure mode. -/
theorem load_mkdir_counterexample :
    ChunkStorage.load mkdirFailingStorage ((0 : Int), (0 : Int), (0 : Int)) =
      .error .osError := by
  rfl

/-- C6 (amended): `ChunkStorage.load` raises only when the coordinate is in
the metadata index and the region-directory creation inside `_get_chunk_path`
(executed before, and outside, the `try:` block) fails with `OSError`; in
every other state — coordinate absent from the index, or chunk file missing,
unreadable, or failing decompression/deserialization — it returns `Except.ok`
with the chunk when the whole pipeline succeeds and `None` (the chunk treated
as not found, the failure only logged) otherwise. -/
theorem load_raises_only_on_mkdir_failure {α : Type} (st : ChunkStorage α) (k : Coord) :
    st.load k =
      if st.chunkIndex k ∧ ¬ st.mkdirOk k then .error .osError
      else .ok (loadSpecResult st k) := by
  simp only [ChunkStorage.load, loadSpecResult, getChunkPathMkdir, storageLoadBody,
    exceptCatch]
  by_cases h : st.chunkIndex k
  · rw [if_neg (by simp [h])]
    by_cases hm : st.mkdirOk k
    · rw [if_pos hm, if_neg (by simp [hm]), if_pos h]
      cases st.disk k <;> rfl
    · rw [if_neg hm, if_pos ⟨h, hm⟩]
  · rw [if_pos (by simp [h]), if_neg (by simp [h]), if_neg h]

/-! ## ChunkProcessor batching theorems (C7) -/

theorem takeBatch_sublist {H : Type} :
    ∀ (l : List (Coord × List H)) (bs : Nat), List.Sublist (takeBatch bs l) l := by
  intro l
  induction l with
  | nil => intro bs; simp [takeBatch]
  | cons e rest ih =>
    intro bs
    obtain ⟨c, fs⟩ := e
    simp only [takeBatch]
    by_cases hfs : fs.isEmpty
    · rw [if_pos hfs]
      exact (ih bs).cons (c, fs)
    · rw [if_neg hfs]
      by_cases hbs : bs ≤ 1
      · rw [if_pos hbs]
        exact (List.nil_sublist rest).cons₂ (c, fs)
      · rw [if_neg hbs]
        exact (ih (bs - 1)).cons₂ (c, fs)

theorem sublist_flatten {β : Type} :
    ∀ {l₁ l₂ : List (List β)}, List.Sublist l₁ l₂ → List.Sublist l₁.flatten l₂.flatten := by
  intro l₁ l₂ h
  induction h with
  | slnil => exact List.Sublist.refl _
  | cons a _ ih =>
    rw [List.flatten_cons]
    exact ih.trans (List.sublist_append_right a _)
  | cons₂ a _ ih =>
    rw [List.flatten_cons, List.flatten_cons]
    exact ih.append_left a

theorem pendingHandles_cons {H : Type} (e : Coord × List H) (rest : List (Coord × List H)) :
    pendingHandles (e :: rest) = e.2 ++ pendingHandles rest := by
  simp [pendingHandles]

theorem batchAssignments_map_fst {H R : Type} (gen : Coord → R) :
    ∀ (batch : List (Coord × List H)),
      (batchAssignments gen batch).map Prod.fst = pendingHandles batch := by
  intro batch
  induction batch with
  | nil => rfl
  | cons e rest ih =>
    obtain ⟨c, fs⟩ := e
    rw [pendingHandles_cons]
    simp only [batchAssignments, List.map_append, ih]
    congr 1
    rw [List.map_map]
    rw [show (Prod.fst ∘ fun f : H => (f, gen c)) = id from rfl, List.map_id]

theorem mem_batchAssignments {H R : Type} (gen : Coord → R) :
    ∀ (batch : List (Coord × List H)) (c : Coord) (fs : List H) (h : H),
      (c, fs) ∈ batch → h ∈ fs → (h, gen c) ∈ batchAssignments gen batch := by
  intro batch
  induction batch with
  | nil => intro c fs h hmem; simp at hmem
  | cons e rest ih =>
    intro c fs h hmem hh
    rcases List.mem_cons.1 hmem with rfl | hmem'
    · simp only [batchAssignments, List.mem_append]
      exact Or.inl (List.mem_map_of_mem _ hh)
    · obtain ⟨c', fs'⟩ := e
      simp only [batchAssignments, List.mem_append]
      exact Or.inr (ih c fs h hmem' hh)

theorem count_pair_eq_one {H R : Type} [DecidableEq H] [DecidableEq R] :
    ∀ (l : List (H × R)) (h : H) (r : R),
      (h, r) ∈ l → (l.map Prod.fst).count h = 1 → l.count (h, r) = 1 := by
  intro l
  induction l with
  | nil => intro h r hmem; simp at hmem
  | cons e rest ih =>
    intro h r hmem hcount
    obtain ⟨h', r'⟩ := e
    by_cases hh : h = h'
    · subst hh
      rw [List.map_cons, List.count_cons_self] at hcount
      have hzero : (rest.map Prod.fst).count h = 0 := by omega
      have hnot : (h, r) ∉ rest := by
        intro hin
        have hmf : h ∈ rest.map Prod.fst := List.mem_map_of_mem Prod.fst hin
        rw [List.count_eq_zero] at hzero
        exact hzero hmf
      have heq : (h, r) = (h, r') := by
        rcases List.mem_cons.1 hmem with heq' | hin'
        · exact heq'
        · exact absurd hin' hnot
      rw [← heq, List.count_cons_self, List.count_eq_zero.2 hnot]
    · rw [List.map_cons, List.count_cons_of_ne hh] at hcount
      have hmem' : (h, r) ∈ rest := by
        rcases List.mem_cons.1 hmem with heq' | hin'
        · exact absurd (congrArg Prod.fst heq') hh
        · exact hin'
      have hne : (h, r) ≠ (h', r') := fun heq' => hh (congrArg Prod.fst heq')
      rw [List.count_cons_of_ne hne]
      exact ih h r hmem' hcount

theorem count_eq_one_of_nodup_mem {β : Type} [BEq β] [LawfulBEq β] :
    ∀ {l : List β} {b : β}, l.Nodup → b ∈ l → l.count b = 1 := by
  intro l
  induction l with
  | nil => intro b _ hb; simp at hb
  | cons a t ih =>
    intro b hnd hb
    by_cases hba : b = a
    · subst hba
      rw [List.count_cons_self]
      have hnot : b ∉ t := (List.nodup_cons.1 hnd).1
      rw [List.count_eq_zero.2 hnot]
    · rw [List.count_cons_of_ne hba]
      rcases List.mem_cons.1 hb with rfl | hbt
      · exact absurd rfl hba
      · exact ih (List.nodup_cons.1 hnd).2 hbt

/-- C7: for a batch drained by `_create_batch` from a pending-request map
with distinct coordinate keys and distinct (fresh) futures, each batched
entry is the complete pending future list of its coordinate, the batch's
generation coordinate list names the coordinate exactly once (one generation
call shared by all duplicate requests), and the result deliveries of
`_process_batches` resolve every future registered for the coordinate exactly
once, with that single call's result. -/
theorem batch_resolution {H R : Type} [DecidableEq H] [DecidableEq R]
    (pending : List (Coord × List H)) (gen : Coord → R) (bs : Nat)
    (hkeys : (pending.map (fun e => e.1)).Nodup)
    (hhandles : (pendingHandles pending).Nodup)
    (c : Coord) (fs : List H) (hmem : (c, fs) ∈ takeBatch bs pending) :
    (c, fs) ∈ pending ∧
      (batchCoords (takeBatch bs pending)).count c = 1 ∧
      ∀ h ∈ fs,
        ((batchAssignments gen (takeBatch bs pending)).map Prod.fst).count h = 1 ∧
        (batchAssignments gen (takeBatch bs pending)).count (h, gen c) = 1 := by
  have hsub := takeBatch_sublist pending bs
  have hkeys_batch : ((takeBatch bs pending).map (fun e => e.1)).Nodup :=
    hkeys.sublist (hsub.map (fun e => e.1))
  have hhandles_batch : (pendingHandles (takeBatch bs pending)).Nodup :=
    hhandles.sublist (sublist_flatten (hsub.map (fun e => e.2)))
  refine ⟨hsub.subset hmem, ?_, ?_⟩
  · have hcmem : c ∈ batchCoords (takeBatch bs pending) := by
      have := List.mem_map_of_mem (fun e : Coord × List H => e.1) hmem
      exact this
    have : (batchCoords (takeBatch bs pending)).Nodup := hkeys_batch
    exact count_eq_one_of_nodup_mem this hcmem
  · intro h hh
    have hfst : ((batchAssignments gen (takeBatch bs pending)).map Prod.fst).count h = 1 := by
      rw [batchAssignments_map_fst]
      refine count_eq_one_of_nodup_mem hhandles_batch ?_
      simp only [pendingHandles, List.mem_flatten]
      exact ⟨fs, List.mem_map_of_mem (fun e => e.2) hmem, hh⟩
    refine ⟨hfst, ?_⟩
    exact count_pair_eq_one _ h (gen c)
      (mem_batchAssignments gen (takeBatch bs pending) c fs h hmem hh) hfst

/-- C7 witness: a pending map with two futures for one coordinate and one for
another; the first coordinate's entry is batched whole, generated once, and
each of its futures is resolved exactly once with that result. -/
theorem batch_resolution_witness :
    (((0 : Int), (0 : Int), (0 : Int)), [(0 : Nat), 1]) ∈
        [(((0 : Int), (0 : Int), (0 : Int)), [(0 : Nat), 1]),
         (((1 : Int), (0 : Int), (0 : Int)), [2])] ∧
      (batchCoords (takeBatch 50
        [(((0 : Int), (0 : Int), (0 : Int)), [(0 : Nat), 1]),
         (((1 : Int), (0 : Int), (0 : Int)), [2])])).count ((0 : Int), (0 : Int), (0 : Int))
        = 1 ∧
      ∀ h ∈ [(0 : Nat), 1],
        ((batchAssignments (fun c => c.1) (takeBatch 50
          [(((0 : Int), (0 : Int), (0 : Int)), [(0 : Nat), 1]),
           (((1 : Int), (0 : Int), (0 : Int)), [2])])).map Prod.fst).count h = 1 ∧
        (batchAssignments (fun c => c.1) (takeBatch 50
          [(((0 : Int), (0 : Int), (0 : Int)), [(0 : Nat), 1]),
           (((1 : Int), (0 : Int), (0 : Int)), [2])])).count (h, (0 : Int)) = 1 :=
  batch_resolution
    [(((0 : Int), (0 : Int), (0 : Int)), [(0 : Nat), 1]),
     (((1 : Int), (0 : Int), (0 : Int)), [2])]
    (fun c => c.1) 50 (by decide) (by decide)
    ((0 : Int), (0 : Int), (0 : Int)) [(0 : Nat), 1] (by decide)

/-! ## Renderer queue theorem (C9) -/

/-- C9 (code bug): the enqueue step of chunk streaming uses the awaitable
`asyncio.Queue.put`, which never raises `QueueFull` — only `put_nowait` does —
so the `except asyncio.QueueFull: pass` handler is unreachable and a full
queue suspends the producer until a consumer frees a slot instead of dropping
the chunk: on the renderer's full 1000-slot queue the step blocks
(`.blocked`), `put` never returns a raised exception, and no queue state ever
produces the drop outcome the source's handler (and the specification)
intends. -/
theorem full_queue_blocks_instead_of_dropping :
    fetchAndQueueStep fullRendererQueue (0 : Nat) = .blocked ∧
      (∀ (q : AsyncQueue Nat) (chunk : Nat) (e : PyExn), q.put chunk ≠ .raised e) ∧
      ∀ (q : AsyncQueue Nat) (chunk : Nat) (q' : AsyncQueue Nat),
        fetchAndQueueStep q chunk ≠ .dropped q' := by
  refine ⟨?_, ?_, ?_⟩
  · have hfull : (0 < fullRendererQueue.maxsize ∧
        fullRendererQueue.maxsize ≤ fullRendererQueue.items.length) := by
      constructor
      · decide
      · show (1000 : Nat) ≤ (List.replicate 1000 (0 : Nat)).length
        rw [List.length_replicate]
    simp only [fetchAndQueueStep, AsyncQueue.put, if_pos hfull]
  · intro q chunk e
    unfold AsyncQueue.put
    by_cases h : 0 < q.maxsize ∧ q.maxsize ≤ q.items.length
    · rw [if_pos h]
      exact fun hc => PutOutcome.noConfusion hc
    · rw [if_neg h]
      exact fun hc => PutOutcome.noConfusion hc
  · intro q chunk q'
    unfold fetchAndQueueStep AsyncQueue.put
    by_cases h : 0 < q.maxsize ∧ q.maxsize ≤ q.items.length
    · rw [if_pos h]
      exact fun hc => EnqueueResult.noConfusion hc
    · rw [if_neg h]
      exact fun hc => EnqueueResult.noConfusion hc

/-! ## CPU generation theorems (C8) -/

theorem octaveSum_zero_zero :
    ∀ (n : Nat) (amp freq : ℝ), octaveSum n amp freq 0 0 = amp * (2 - 2 * (1 / 2) ^ n) := by
  intro n
  induction n with
  | zero => intro amp freq; simp [octaveSum]
  | succ n ih =>
    intro amp freq
    simp only [octaveSum, zero_mul, zero_add, Real.sin_zero, Real.cos_zero, ih]
    ring

theorem heightMap_zero : heightMap 0 0 = 188 := by
  unfold heightMap
  rw [octaveSum_zero_zero]
  simp only [zero_mul, Real.sin_zero, Real.cos_zero]
  norm_num

theorem wyI6 : (16 * (0 : ℤ) + ((6 : Fin 16) : ℤ)) = 6 := by decide

theorem wyI0 : (16 * (0 : ℤ) + ((0 : Fin 16) : ℤ)) = 0 := by decide

theorem stone060 : stoneMask 0 0 0 0 6 0 := by
  unfold stoneMask
  rw [wyI0, wyI6]
  constructor
  · decide
  · push_cast
    rw [heightMap_zero]
    norm_num

theorem hasStone000 : hasStone 0 0 0 := ⟨0, 6, 0, stone060⟩

theorem sin048_gt : (0.1 : ℝ) < Real.sin 0.48 := by
  have h := @Real.sin_gt_sub_cube 0.48 (by norm_num) (by norm_num)
  nlinarith

theorem cave060_false : ¬ caveMask 0 0 0 0 6 0 := by
  unfold caveMask
  intro hchain
  obtain ⟨habs, _, _⟩ := hchain
  rw [wyI0, wyI6] at habs
  push_cast at habs
  rw [show (0 : ℝ) * 0.1 = 0 by norm_num, show (0 : ℝ) * 0.08 = 0 by norm_num,
    show (6 : ℝ) * 0.08 = 0.48 by norm_num] at habs
  simp only [Real.sin_zero, Real.cos_zero, zero_mul, mul_zero, one_mul, mul_one,
    zero_add] at habs
  have h1 : (0.1 : ℝ) < |Real.sin 0.48| :=
    lt_of_lt_of_le sin048_gt (le_abs_self _)
  linarith

theorem cave000_false : ¬ caveMask 0 0 0 0 0 0 := by
  unfold caveMask
  intro hchain
  obtain ⟨_, h5, _⟩ := hchain
  rw [wyI0] at h5
  exact absurd h5 (by decide)

theorem base060 : baseBlock 0 0 0 0 6 0 = 1 := by
  simp only [baseBlock]
  rw [wyI0, wyI6]
  push_cast
  rw [heightMap_zero]
  rw [if_neg (by intro h; exact absurd h.1 (by norm_num)),
    if_neg (by intro h; exact absurd h.1 (by norm_num)),
    if_pos ⟨by norm_num, by norm_num⟩]

theorem base000 : baseBlock 0 0 0 0 0 0 = 7 := by
  simp only [baseBlock]
  rw [wyI0]
  push_cast
  rw [heightMap_zero]
  rw [if_neg (by intro h; exact absurd h.1 (by norm_num)),
    if_neg (by intro h; exact absurd h.1 (by norm_num)),
    if_neg (by intro h; exact absurd h.1 (by norm_num))]

theorem oreBlock_noDraws (x y z : ℤ) (i j k : Fin 16) (b : ℕ) :
    oreBlock x y z noDraws i j k b = b := by
  simp only [oreBlock]
  rw [if_neg (fun h => absurd h.2.2.2 (by simp [noDraws])),
    if_neg (fun h => absurd h.2.2.2 (by simp [noDraws])),
    if_neg (fun h => absurd h.2.2.2 (by simp [noDraws])),
    if_neg (fun h => absurd h.2.2.2 (by simp [noDraws])),
    if_neg (fun h => absurd h.2.2.2 (by simp [noDraws])),
    if_neg (fun h => absurd h.2.2.2 (by simp [noDraws]))]

theorem oreBlock_coalDraw_060 (b : ℕ) : oreBlock 0 0 0 coalDraw 0 6 0 b = 16 := by
  simp only [oreBlock]
  rw [if_neg (fun h => absurd h.2.2.2 (by decide)),
    if_neg (fun h => absurd h.2.2.2 (by decide)),
    if_neg (fun h => absurd h.2.2.2 (by decide)),
    if_neg (fun h => absurd h.2.2.2 (by decide)),
    if_neg (fun h => absurd h.2.2.2 (by decide)),
    if_pos ⟨hasStone000, by rw [wyI6]; constructor <;> decide, stone060, by decide⟩]

theorem blockValue_060_noDraws : blockValue 0 0 0 noDraws 0 6 0 = 1 := by
  simp only [blockValue]
  rw [if_neg cave060_false, base060, oreBlock_noDraws]

theorem blockValue_060_coalDraw : blockValue 0 0 0 coalDraw 0 6 0 = 16 := by
  simp only [blockValue]
  rw [if_neg cave060_false, oreBlock_coalDraw_060]

theorem blockValue_origin (d : OreDraws) : blockValue 0 0 0 d 0 0 0 = 7 := by
  simp only [blockValue]
  rw [if_neg cave000_false]
  simp only [oreBlock]
  rw [if_neg (fun h => absurd h.2.1.1 (by rw [wyI0] at *; decide)),
    if_neg (fun h => absurd h.2.1.1 (by rw [wyI0] at *; decide)),
    if_neg (fun h => absurd h.2.1.1 (by rw [wyI0] at *; decide)),
    if_neg (fun h => absurd h.2.1.1 (by rw [wyI0] at *; decide)),
    if_neg (fun h => absurd h.2.1.1 (by rw [wyI0] at *; decide)),
    if_neg (fun h => absurd h.2.1.1 (by rw [wyI0] at *; decide)),
    base000]

theorem oreBlock_eq_or_mem (x y z : ℤ) (d : OreDraws) (i j k : Fin 16) (b : ℕ) :
    oreBlock x y z d i j k b = b ∨ oreBlock x y z d i j k b ∈ oreCodes := by
  simp only [oreBlock]
  split_ifs <;> simp [oreCodes]

/-- C8 counterexample: the claim that the CPU generation routine is a
function of the coordinate alone fails at chunk `(0,0,0)`: the ore pass reads
NumPy's unseeded global generator, and an invocation observing an all-`False`
coal draw leaves cell `(0,6,0)` as stone (code 1) while one observing a
`True` coal draw there writes coal ore (code 16), so the two grids differ. -/
theorem generateChunkCPU_not_coordinate_deterministic :
    ¬ ∀ (x y z : ℤ) (d₁ d₂ : OreDraws),
        generateChunkCPU x y z d₁ = generateChunkCPU x y z d₂ := by
  intro hclaim
  have h := congrFun (congrFun (congrFun (hclaim 0 0 0 noDraws coalDraw) 0) 6) 0
  simp only [generateChunkCPU] at h
  rw [blockValue_060_noDraws, blockValue_060_coalDraw] at h
  exact absurd h (by norm_num)

/-- C8 (amended): the CPU generation routine is deterministic given the
coordinate except for ore placement — at every cell whose value is not an ore
code under either invocation, two invocations with arbitrary (independent)
random draws agree, because the layer structure (bedrock/stone/dirt/grass),
the height field and the cave carve depend only on `(x, y, z)`; full-grid
equality fails only on cells where the unseeded ore randomness fired. -/
theorem generateChunkCPU_agree_off_ore (x y z : ℤ) (d₁ d₂ : OreDraws) (i j k : Fin 16)
    (h₁ : blockValue x y z d₁ i j k ∉ oreCodes)
    (h₂ : blockValue x y z d₂ i j k ∉ oreCodes) :
    generateChunkCPU x y z d₁ i j k = generateChunkCPU x y z d₂ i j k := by
  simp only [generateChunkCPU, blockValue] at *
  by_cases hc : caveMask x y z i j k
  · rw [if_pos hc, if_pos hc]
  · rw [if_neg hc] at h₁ h₂ ⊢
    rw [if_neg hc]
    rcases oreBlock_eq_or_mem x y z d₁ i j k (baseBlock x y z i j k) with he₁ | hm₁
    · rcases oreBlock_eq_or_mem x y z d₂ i j k (baseBlock x y z i j k) with he₂ | hm₂
      · rw [he₁, he₂]
      · exact absurd hm₂ h₂
    · exact absurd hm₁ h₁

/-- C8 witness: the bedrock cell `(0,0,0)` of chunk `(0,0,0)` is 7 (not an
ore code) under both the all-`False` draws and the coal draw, so the amended
agreement theorem applies there. -/
theorem generateChunkCPU_agree_off_ore_witness :
    generateChunkCPU 0 0 0 noDraws 0 0 0 = generateChunkCPU 0 0 0 coalDraw 0 0 0 :=
  generateChunkCPU_agree_off_ore 0 0 0 noDraws coalDraw 0 0 0
    (by rw [blockValue_origin]; decide) (by rw [blockValue_origin]; decide)
